import Mathlib

/-!
# Verification of the gsplat rasterization pipeline interface

Shallow embedding of the differentiable Gaussian-splatting rasterization
pipeline declared in `src/gsplat/cuda/csrc/bindings.h`, together with proofs
of the frozen claims about it.  The header declares interfaces only; where a
kernel body is needed it is modelled from the specification, and each such
definition says so in its doc comment.
-/

namespace GSplat

/-- A dense array argument as seen by the bindings layer: its shape and the
two residency flags that `CHECK_CUDA` / `CHECK_CONTIGUOUS` test.  From the
source: every dense argument is a `torch::Tensor` checked by these macros. -/
structure Tensor where
  shape : List Nat
  is_cuda : Bool
  is_contiguous : Bool
deriving DecidableEq, Repr

/-- From the source macro `CHECK_CUDA(x)`: `TORCH_CHECK(x.is_cuda(), ...)`. -/
def CHECK_CUDA (x : Tensor) : Bool := x.is_cuda

/-- From the source macro `CHECK_CONTIGUOUS(x)`: `TORCH_CHECK(x.is_contiguous(), ...)`. -/
def CHECK_CONTIGUOUS (x : Tensor) : Bool := x.is_contiguous

/-- From the source macro `CHECK_INPUT(x)`: `CHECK_CUDA(x); CHECK_CONTIGUOUS(x)`. -/
def CHECK_INPUT (x : Tensor) : Bool := CHECK_CUDA x && CHECK_CONTIGUOUS x

/-- Modelled from the spec: every binding first applies `CHECK_INPUT` to each
dense array argument and only then launches its kernel; a failing
`TORCH_CHECK` raises synchronously, so no kernel is launched and no output is
produced.  The result records the call outcome, the number of kernel launches
performed, and the state of the input arrays after the call (`TORCH_CHECK`
and the macros only read the arguments). -/
def guardedCall (args : List Tensor) (kernel : List Tensor → List Tensor) :
    Except String (List Tensor) × Nat × List Tensor :=
  if args.all CHECK_INPUT then (Except.ok (kernel args), 1, args)
  else (Except.error "CHECK_INPUT failed", 0, args)

/-- Number of spherical-harmonic basis functions for a given degree,
`(degree + 1)^2`. -/
def num_sh_bases (degree : Nat) : Nat := (degree + 1) * (degree + 1)

/-- Shape of the `coeffs` input of `compute_sh_forward_tensor`.  Modelled from
the spec: a coefficient array per primitive, per basis function, per color
channel (3). -/
def sh_coeffs_shape (num_points degree : Nat) : List Nat :=
  [num_points, num_sh_bases degree, 3]

/-- The outputs of `compute_sh_backward_tensor`.  From the source declaration
(bindings.h lines 33-40): the return type is a single `torch::Tensor`, the
gradient w.r.t. the basis coefficients; the argument list is
`(method, num_points, degree, degrees_to_use, viewdirs, v_colors)` and the
returned list does not depend on `degrees_to_use`.  The shape of the one
output is modelled from the spec (gradient shaped like the coefficients). -/
def compute_sh_backward_tensor (method : String) (num_points degree degrees_to_use : Nat)
    (viewdirs v_colors : Tensor) : List Tensor :=
  [⟨sh_coeffs_shape num_points degree, true, true⟩]

/-- Shapes of the five gradients returned by `rasterize_backward_tensor`
(source comments: `dL_dxy`, `dL_dxy_abs`, `dL_dconic`, `dL_dcolors`,
`dL_dopacity`).  Modelled from the spec: per-primitive 2D mean (2 floats),
conic (3 floats), color (3 channels in the fixed path), opacity (scalar);
`n` is the primitive count. -/
def rasterize_backward_tensor_grad_shapes (n : Nat) : List (List Nat) :=
  [[n, 2], [n, 2], [n, 3], [n, 3], [n, 1]]

/-- Shapes of the per-primitive dense inputs of `rasterize_forward_tensor`
(`xys`, `conics`, `colors`, `opacities`).  Modelled from the spec data model
(same per-primitive quantities as above). -/
def rasterize_forward_tensor_input_shapes (n : Nat) : List (List Nat) :=
  [[n, 2], [n, 3], [n, 3], [n, 1]]

/-- Shapes of the five gradients returned by `nd_rasterize_backward_tensor`;
the N-channel path generalizes the color channel count to `c`. -/
def nd_rasterize_backward_tensor_grad_shapes (n c : Nat) : List (List Nat) :=
  [[n, 2], [n, 2], [n, 3], [n, c], [n, 1]]

/-- Shapes of the per-primitive dense inputs of `nd_rasterize_forward_tensor`. -/
def nd_rasterize_forward_tensor_input_shapes (n c : Nat) : List (List Nat) :=
  [[n, 2], [n, 3], [n, c], [n, 1]]

/-! ## Rasterizer forward model

Modelled from the spec (§4.6): per tile, per pixel, the forward rasterizer
walks the tile's depth-sorted bin keeping a running transmittance `T`
(init 1), an accumulated alpha, an accumulated color `C` (init 0), and the
index of the last contributing primitive (init `bin start - 1`, the
"no contributor" sentinel).  For each primitive: its alpha at the pixel is
the 2D Gaussian density times the opacity; if it is below the negligible
threshold the primitive is skipped without counting as last contributor;
otherwise `C += T * alpha * color`, the accumulated alpha gains `T * alpha`,
`T *= (1 - alpha)`, the index is recorded, and the walk stops early once `T`
falls below the cutoff.  Final outputs: composited color (accumulated color
plus `T` times background), alpha, final `T`, last index.  Real-valued
quantities are modelled over `ℚ`. -/

/-- A primitive as the per-pixel compositing loop sees it: its alpha at this
pixel (Gaussian density at the pixel times the primitive's opacity) and its
color channels. -/
structure Prim where
  alpha : ℚ
  color : List ℚ
deriving DecidableEq, Repr

/-- Per-pixel forward compositing state: running transmittance, accumulated
alpha, accumulated color, and the index (within the tile's bin) of the last
primitive that contributed. -/
structure PixState where
  T : ℚ
  accAlpha : ℚ
  C : List ℚ
  curIdx : Int
deriving DecidableEq, Repr

/-- Initial per-pixel state: `T = 1`, accumulated alpha 0, accumulated color
all zeros, last index the sentinel `bin start - 1`. -/
def initState (binStart : Nat) (numChannels : Nat) : PixState :=
  ⟨1, 0, List.replicate numChannels 0, (binStart : Int) - 1⟩

/-- One blend step at bin index `i`: `C += T * alpha * color`, accumulated
alpha gains `T * alpha`, `T *= (1 - alpha)`, the index is recorded. -/
def blendStep (s : PixState) (p : Prim) (i : Nat) : PixState :=
  ⟨s.T * (1 - p.alpha),
   s.accAlpha + s.T * p.alpha,
   List.zipWith (fun c pc => c + s.T * p.alpha * pc) s.C p.color,
   (i : Int)⟩

/-- The per-pixel compositing loop over the tile's bin, starting at bin index
`i`: primitives with alpha below `eps` are skipped without counting as last
contributor; otherwise the blend step runs and the loop stops early once the
transmittance falls below `cutoff`. -/
def rasterLoop (eps cutoff : ℚ) : List Prim → Nat → PixState → PixState
  | [], _, s => s
  | p :: ps, i, s =>
    if p.alpha < eps then rasterLoop eps cutoff ps (i + 1) s
    else
      let s' := blendStep s p i
      if s'.T < cutoff then s' else rasterLoop eps cutoff ps (i + 1) s'

/-- The sequence of per-pixel states the compositing loop passes through,
starting from `s` (inclusive): used to state properties of the running
transmittance throughout the walk, not only at its end. -/
def rasterStates (eps cutoff : ℚ) : List Prim → Nat → PixState → List PixState
  | [], _, s => [s]
  | p :: ps, i, s =>
    if p.alpha < eps then s :: rasterStates eps cutoff ps (i + 1) s
    else
      let s' := blendStep s p i
      if s'.T < cutoff then [s, s'] else s :: rasterStates eps cutoff ps (i + 1) s'

/-- Per-pixel output of forward rasterization: composited color, alpha,
final transmittance, index of the last contributing primitive in the bin. -/
structure RasterOut where
  outColor : List ℚ
  outAlpha : ℚ
  finalT : ℚ
  finalIdx : Int
deriving DecidableEq, Repr

/-- Forward rasterization of one pixel whose tile bin holds `prims` (already
depth-sorted), beginning at absolute record index `binStart`: run the
compositing loop from the initial state, then composite the background under
the remaining transmittance.  The returned alpha is the accumulated alpha. -/
def rasterize_pixel (eps cutoff : ℚ) (binStart : Nat) (prims : List Prim)
    (background : List ℚ) : RasterOut :=
  let s := rasterLoop eps cutoff prims binStart (initState binStart background.length)
  ⟨List.zipWith (fun c b => c + s.T * b) s.C background, s.accAlpha, s.T, s.curIdx⟩

/-! ## Intersection records, sort keys, tile bins

Modelled from the spec (§3, §4.3-§4.5): the Tile Mapper emits one record per
(primitive, covered tile) pair, packing the tile id into the high 32 bits of
a 64-bit sort key and the depth bits into the low 32 bits; a single key sort
then yields (tile, depth) order.  The Tile Indexer derives, for each tile id
in `[0, tiles_x * tiles_y)`, the `[start, end)` range of the sorted record
array holding that tile's records; a tile with no records gets
`start == end ==` its insertion point. -/

/-- An intersection record: primitive id, tile id, and the packed depth value
(the depth's 32 bit pattern, a natural number below `2^32`). -/
structure IsectRecord where
  primId : Nat
  tileId : Nat
  depth : Nat
deriving DecidableEq, Repr

/-- The packed 64-bit sort key of a record: tile id in the high 32 bits,
depth in the low 32 bits. -/
def packKey (r : IsectRecord) : Nat := r.tileId * 2 ^ 32 + r.depth

/-- All depth fields are valid 32-bit values. -/
abbrev DepthsValid (l : List IsectRecord) : Prop := ∀ r ∈ l, r.depth < 2 ^ 32

/-- The record array is sorted by packed key (the Sorter's postcondition). -/
abbrev SortedByKey (l : List IsectRecord) : Prop :=
  l.Pairwise (fun a b => packKey a ≤ packKey b)

/-- The depth-order statement of the claim as written: within the sorted
array, any two records with the same tile id have strictly increasing
depths. -/
def StrictDepthOrder (l : List IsectRecord) : Prop :=
  ∀ i j (hi : i < l.length) (hj : j < l.length), i < j →
    (l.get ⟨i, hi⟩).tileId = (l.get ⟨j, hj⟩).tileId →
    (l.get ⟨i, hi⟩).depth < (l.get ⟨j, hj⟩).depth

/-- Two records in the same tile at the same depth: their packed keys are
equal, so the array is sorted by key, yet depths do not strictly increase. -/
def tiedDepthRecords : List IsectRecord := [⟨0, 5, 7⟩, ⟨1, 5, 7⟩]

/-- Start of tile `t`'s bin: the insertion point a binary search for the
first record of tile `t` finds in the sorted array, i.e. the number of
records whose tile id precedes `t`. -/
def tile_bin_start (tiles : List Nat) (t : Nat) : Nat :=
  tiles.countP (fun a => decide (a < t))

/-- End of tile `t`'s bin: the insertion point past the last record of tile
`t`, i.e. the number of records whose tile id does not exceed `t`. -/
def tile_bin_end (tiles : List Nat) (t : Nat) : Nat :=
  tiles.countP (fun a => decide (a ≤ t))

/-- Modelled from the spec: `get_tile_bin_edges_tensor` returns, for each
tile id in `[0, num_tiles)` (with `num_tiles = tiles_x * tiles_y`), the
`[start, end)` range into the sorted record array found by binary search;
`tiles` is the tile-id component of the sorted records. -/
def get_tile_bin_edges (num_tiles : Nat) (tiles : List Nat) : List (Nat × Nat) :=
  (List.range num_tiles).map (fun t => (tile_bin_start tiles t, tile_bin_end tiles t))

/-! ## Spherical-harmonic color evaluation, linearity

Modelled from the spec (§4.1): the Basis Evaluator computes an output color
channel as the coefficient-weighted sum of the basis functions evaluated at
the view direction; its backward pass, `compute_sh_backward_tensor`, takes
(per the source declaration) the view directions and the output-color
gradient — but not the coefficients — and returns the coefficient
gradient. -/

/-- One color channel of the basis evaluation: the sum over the `nb` basis
functions of the basis value at the view direction times the coefficient.
`basis i` stands for the `i`-th basis function evaluated at the (fixed) view
direction. -/
def sh_color (basis : Nat → ℚ) (nb : Nat) (coeffs : Nat → ℚ) : ℚ :=
  ∑ i in Finset.range nb, basis i * coeffs i

/-- The coefficient gradient for one channel: with output-color gradient
`v_color`, the gradient w.r.t. coefficient `i` is the `i`-th basis value
times `v_color`.  As in the source declaration, the coefficients are not an
argument. -/
def sh_coeff_grad (basis : Nat → ℚ) (nb : Nat) (v_color : ℚ) : Nat → ℚ :=
  fun i => if i < nb then basis i * v_color else 0

/-! ## Theorems -/

/-- C8: if any dense array argument fails `CHECK_INPUT` (not GPU-resident or
not contiguous), the call fails synchronously with no kernel launch, produces
no output, and leaves the input arrays unchanged. -/
theorem C8_check_input_fail_fast (args : List Tensor) (kernel : List Tensor → List Tensor)
    (x : Tensor) (hx : x ∈ args) (hbad : CHECK_INPUT x = false) :
    (guardedCall args kernel).1 = Except.error "CHECK_INPUT failed" ∧
    (guardedCall args kernel).2.1 = 0 ∧
    (guardedCall args kernel).2.2 = args := by
  have hall : args.all CHECK_INPUT = false := by
    cases h : args.all CHECK_INPUT
    · rfl
    · exact absurd (List.all_eq_true.mp h x hx) (by simp [hbad])
  simp [guardedCall, hall]

/-- Witness for C8: a call with one non-CUDA tensor fails with no launch and
unchanged inputs. -/
theorem C8_witness :
    (guardedCall [⟨[4, 2], false, true⟩] id).1 = Except.error "CHECK_INPUT failed" ∧
    (guardedCall [⟨[4, 2], false, true⟩] id).2.1 = 0 ∧
    (guardedCall [⟨[4, 2], false, true⟩] id).2.2 = [⟨[4, 2], false, true⟩] :=
  C8_check_input_fail_fast [⟨[4, 2], false, true⟩] id ⟨[4, 2], false, true⟩
    (List.mem_singleton.mpr rfl) rfl

/-- C7: every gradient shape returned by the rasterizer backward passes
(fixed 3-channel and N-channel) equals the shape of some per-primitive dense
input of the corresponding forward pass. -/
theorem C7_backward_grad_shapes_match_forward_inputs (n c : Nat) (s : List Nat) :
    (s ∈ rasterize_backward_tensor_grad_shapes n →
      s ∈ rasterize_forward_tensor_input_shapes n) ∧
    (s ∈ nd_rasterize_backward_tensor_grad_shapes n c →
      s ∈ nd_rasterize_forward_tensor_input_shapes n c) := by
  constructor <;> intro h <;>
    simp only [rasterize_backward_tensor_grad_shapes, rasterize_forward_tensor_input_shapes,
      nd_rasterize_backward_tensor_grad_shapes, nd_rasterize_forward_tensor_input_shapes,
      List.mem_cons, List.not_mem_nil, or_false] at h ⊢ <;>
    tauto

/-- Witness for C7: the `dL_dxy` shape for 3 primitives is a forward input
shape, in both the fixed and the 5-channel nd path. -/
theorem C7_witness :
    [(3 : Nat), 2] ∈ rasterize_forward_tensor_input_shapes 3 ∧
    [(3 : Nat), 5] ∈ nd_rasterize_forward_tensor_input_shapes 3 5 :=
  ⟨(C7_backward_grad_shapes_match_forward_inputs 3 5 [3, 2]).1 (by decide),
   (C7_backward_grad_shapes_match_forward_inputs 3 5 [3, 5]).2 (by decide)⟩

/-- C6 counterexample: the claim as stated requires two outputs (coefficient
gradient and view-direction gradient) whenever `degrees_to_use > 0`; at
`degrees_to_use = 1` the declared interface still returns a single tensor. -/
theorem C6_counterexample :
    (0 : Nat) < 1 ∧
    (compute_sh_backward_tensor "fast" 4 3 1 ⟨[4, 3], true, true⟩
        ⟨[4, 3], true, true⟩).length ≠ 2 := by
  exact ⟨by decide, by decide⟩

/-- C6 amended: `compute_sh_backward_tensor` always returns exactly one
gradient, shaped like the coefficient array, independently of
`degrees_to_use`; no view-direction gradient is returned for any degree. -/
theorem C6_backward_returns_coeff_grad_only (method : String)
    (num_points degree degrees_to_use : Nat) (viewdirs v_colors : Tensor) :
    (compute_sh_backward_tensor method num_points degree degrees_to_use
        viewdirs v_colors).map Tensor.shape = [sh_coeffs_shape num_points degree] ∧
    ∀ dtu2, compute_sh_backward_tensor method num_points degree degrees_to_use viewdirs v_colors
      = compute_sh_backward_tensor method num_points degree dtu2 viewdirs v_colors :=
  ⟨rfl, fun _ => rfl⟩

/-- C10: spherical-harmonic color evaluation is linear in the coefficients,
and the coefficient gradient is independent of the coefficient values: the
change of the `v_color`-weighted output under any coefficient perturbation
`δ` from any base point `c` is the pairing of `δ` with `sh_coeff_grad`,
which takes no coefficient argument. -/
theorem C10_sh_linear_coeff_grad_independent (basis : Nat → ℚ) (nb : Nat)
    (v_color : ℚ) (c δ : Nat → ℚ) (a : ℚ) :
    sh_color basis nb (fun i => c i + δ i) = sh_color basis nb c + sh_color basis nb δ ∧
    sh_color basis nb (fun i => a * c i) = a * sh_color basis nb c ∧
    v_color * (sh_color basis nb (fun i => c i + δ i) - sh_color basis nb c)
      = ∑ i in Finset.range nb, δ i * sh_coeff_grad basis nb v_color i := by
  refine ⟨?_, ?_, ?_⟩
  · simp [sh_color, mul_add, Finset.sum_add_distrib]
  · rw [sh_color, sh_color, Finset.mul_sum]
    exact Finset.sum_congr rfl (fun i _ => by ring)
  · have h1 : sh_color basis nb (fun i => c i + δ i) - sh_color basis nb c
        = ∑ i in Finset.range nb, basis i * δ i := by
      simp [sh_color, mul_add, Finset.sum_add_distrib]
    rw [h1, Finset.mul_sum]
    refine Finset.sum_congr rfl (fun i hi => ?_)
    simp only [sh_coeff_grad, if_pos (Finset.mem_range.mp hi)]
    ring

/-! ### Rasterizer loop: equation lemmas and invariants -/

theorem rasterLoop_cons_skip (eps cutoff : ℚ) (p : Prim) (ps : List Prim) (i : Nat)
    (s : PixState) (h : p.alpha < eps) :
    rasterLoop eps cutoff (p :: ps) i s = rasterLoop eps cutoff ps (i + 1) s := by
  simp [rasterLoop, h]

theorem rasterLoop_cons_stop (eps cutoff : ℚ) (p : Prim) (ps : List Prim) (i : Nat)
    (s : PixState) (h : ¬ p.alpha < eps) (h2 : (blendStep s p i).T < cutoff) :
    rasterLoop eps cutoff (p :: ps) i s = blendStep s p i := by
  simp [rasterLoop, h, h2]

theorem rasterLoop_cons_go (eps cutoff : ℚ) (p : Prim) (ps : List Prim) (i : Nat)
    (s : PixState) (h : ¬ p.alpha < eps) (h2 : ¬ (blendStep s p i).T < cutoff) :
    rasterLoop eps cutoff (p :: ps) i s = rasterLoop eps cutoff ps (i + 1) (blendStep s p i) := by
  simp [rasterLoop, h, h2]

theorem rasterStates_cons_skip (eps cutoff : ℚ) (p : Prim) (ps : List Prim) (i : Nat)
    (s : PixState) (h : p.alpha < eps) :
    rasterStates eps cutoff (p :: ps) i s = s :: rasterStates eps cutoff ps (i + 1) s := by
  simp [rasterStates, h]

theorem rasterStates_cons_stop (eps cutoff : ℚ) (p : Prim) (ps : List Prim) (i : Nat)
    (s : PixState) (h : ¬ p.alpha < eps) (h2 : (blendStep s p i).T < cutoff) :
    rasterStates eps cutoff (p :: ps) i s = [s, blendStep s p i] := by
  simp [rasterStates, h, h2]

theorem rasterStates_cons_go (eps cutoff : ℚ) (p : Prim) (ps : List Prim) (i : Nat)
    (s : PixState) (h : ¬ p.alpha < eps) (h2 : ¬ (blendStep s p i).T < cutoff) :
    rasterStates eps cutoff (p :: ps) i s
      = s :: rasterStates eps cutoff ps (i + 1) (blendStep s p i) := by
  simp [rasterStates, h, h2]

/-- The state sequence starts at the initial state. -/
theorem rasterStates_head (eps cutoff : ℚ) (prims : List Prim) (i : Nat) (s : PixState) :
    (rasterStates eps cutoff prims i s).head? = some s := by
  cases prims with
  | nil => rfl
  | cons p ps =>
    by_cases h : p.alpha < eps
    · rw [rasterStates_cons_skip eps cutoff p ps i s h]; rfl
    · by_cases h2 : (blendStep s p i).T < cutoff
      · rw [rasterStates_cons_stop eps cutoff p ps i s h h2]; rfl
      · rw [rasterStates_cons_go eps cutoff p ps i s h h2]; rfl

/-- The state sequence is never empty. -/
theorem rasterStates_ne_nil (eps cutoff : ℚ) (prims : List Prim) (i : Nat) (s : PixState) :
    rasterStates eps cutoff prims i s ≠ [] := by
  intro hc
  have := rasterStates_head eps cutoff prims i s
  rw [hc] at this
  exact Option.noConfusion this

/-- The state sequence ends at the loop's result. -/
theorem rasterStates_getLast (eps cutoff : ℚ) :
    ∀ (prims : List Prim) (i : Nat) (s : PixState),
      (rasterStates eps cutoff prims i s).getLast?
        = some (rasterLoop eps cutoff prims i s) := by
  intro prims
  induction prims with
  | nil => intro i s; rfl
  | cons p ps ih =>
    intro i s
    by_cases h : p.alpha < eps
    · rw [rasterStates_cons_skip eps cutoff p ps i s h,
        rasterLoop_cons_skip eps cutoff p ps i s h]
      cases hx : rasterStates eps cutoff ps (i + 1) s with
      | nil => exact absurd hx (rasterStates_ne_nil eps cutoff ps (i + 1) s)
      | cons x xs =>
        rw [List.getLast?_cons_cons, ← hx]
        exact ih (i + 1) s
    · by_cases h2 : (blendStep s p i).T < cutoff
      · rw [rasterStates_cons_stop eps cutoff p ps i s h h2,
          rasterLoop_cons_stop eps cutoff p ps i s h h2]
        rfl
      · rw [rasterStates_cons_go eps cutoff p ps i s h h2,
          rasterLoop_cons_go eps cutoff p ps i s h h2]
        cases hx : rasterStates eps cutoff ps (i + 1) (blendStep s p i) with
        | nil => exact absurd hx (rasterStates_ne_nil eps cutoff ps (i + 1) (blendStep s p i))
        | cons x xs =>
          rw [List.getLast?_cons_cons, ← hx]
          exact ih (i + 1) (blendStep s p i)

/-- Accumulated alpha plus transmittance is preserved by the compositing
loop: each blend moves exactly `T * alpha` of mass from transmittance to
accumulated alpha. -/
theorem rasterLoop_acc_invariant (eps cutoff : ℚ) :
    ∀ (prims : List Prim) (i : Nat) (s : PixState),
      (rasterLoop eps cutoff prims i s).accAlpha + (rasterLoop eps cutoff prims i s).T
        = s.accAlpha + s.T := by
  intro prims
  induction prims with
  | nil => intro i s; rfl
  | cons p ps ih =>
    intro i s
    by_cases h : p.alpha < eps
    · rw [rasterLoop_cons_skip eps cutoff p ps i s h]; exact ih (i + 1) s
    · by_cases h2 : (blendStep s p i).T < cutoff
      · rw [rasterLoop_cons_stop eps cutoff p ps i s h h2]
        simp only [blendStep]
        ring
      · rw [rasterLoop_cons_go eps cutoff p ps i s h h2]
        rw [ih (i + 1) (blendStep s p i)]
        simp only [blendStep]
        ring

/-- If every alpha lies in `[0, 1]` and the incoming transmittance lies in
`[0, 1]`, then every transmittance along the walk lies in `[0, 1]` and the
transmittance is non-increasing from state to state. -/
theorem rasterStates_T_bounds (eps cutoff : ℚ) :
    ∀ (prims : List Prim) (i : Nat) (s : PixState),
      (∀ p ∈ prims, 0 ≤ p.alpha ∧ p.alpha ≤ 1) → 0 ≤ s.T → s.T ≤ 1 →
      (∀ x ∈ rasterStates eps cutoff prims i s, 0 ≤ x.T ∧ x.T ≤ 1) ∧
      (rasterStates eps cutoff prims i s).Chain' (fun a b => b.T ≤ a.T) := by
  intro prims
  induction prims with
  | nil =>
    intro i s _ h0 h1
    constructor
    · intro x hx
      rw [show rasterStates eps cutoff [] i s = [s] from rfl, List.mem_singleton] at hx
      exact hx ▸ ⟨h0, h1⟩
    · exact List.chain'_singleton s
  | cons p ps ih =>
    intro i s hα h0 h1
    have hp := hα p (List.mem_cons_self p ps)
    have hps : ∀ q ∈ ps, 0 ≤ q.alpha ∧ q.alpha ≤ 1 :=
      fun q hq => hα q (List.mem_cons_of_mem p hq)
    by_cases h : p.alpha < eps
    · rw [rasterStates_cons_skip eps cutoff p ps i s h]
      obtain ⟨hmem, hch⟩ := ih (i + 1) s hps h0 h1
      refine ⟨?_, ?_⟩
      · intro x hx
        rcases List.mem_cons.mp hx with rfl | hx
        · exact ⟨h0, h1⟩
        · exact hmem x hx
      · rw [List.chain'_cons']
        refine ⟨?_, hch⟩
        intro b hb
        rw [rasterStates_head eps cutoff ps (i + 1) s] at hb
        cases hb
        exact le_refl _
    · have hT' : (blendStep s p i).T = s.T * (1 - p.alpha) := rfl
      have h0' : 0 ≤ (blendStep s p i).T := by
        rw [hT']
        exact mul_nonneg h0 (by linarith [hp.2])
      have hle : (blendStep s p i).T ≤ s.T := by
        rw [hT']
        calc s.T * (1 - p.alpha) ≤ s.T * 1 :=
              mul_le_mul_of_nonneg_left (by linarith [hp.1]) h0
        _ = s.T := mul_one s.T
      have h1' : (blendStep s p i).T ≤ 1 := le_trans hle h1
      by_cases h2 : (blendStep s p i).T < cutoff
      · rw [rasterStates_cons_stop eps cutoff p ps i s h h2]
        refine ⟨?_, ?_⟩
        · intro x hx
          rcases List.mem_cons.mp hx with rfl | hx
          · exact ⟨h0, h1⟩
          · rw [List.mem_singleton] at hx
            exact hx ▸ ⟨h0', h1'⟩
        · exact List.chain'_pair.mpr hle
      · rw [rasterStates_cons_go eps cutoff p ps i s h h2]
        obtain ⟨hmem, hch⟩ := ih (i + 1) (blendStep s p i) hps h0' h1'
        refine ⟨?_, ?_⟩
        · intro x hx
          rcases List.mem_cons.mp hx with rfl | hx
          · exact ⟨h0, h1⟩
          · exact hmem x hx
        · rw [List.chain'_cons']
          refine ⟨?_, hch⟩
          intro b hb
          rw [rasterStates_head eps cutoff ps (i + 1) (blendStep s p i)] at hb
          cases hb
          exact hle

/-- Compositing the background under full transmittance returns the
background. -/
theorem zipWith_replicate_zero_background (bg : List ℚ) :
    List.zipWith (fun c b => c + (1 : ℚ) * b) (List.replicate bg.length 0) bg = bg := by
  induction bg with
  | nil => rfl
  | cons b bs ih =>
    simp only [List.length_cons, List.replicate_succ, List.zipWith_cons_cons, ih]
    norm_num

/-- C1: for every pixel, the alpha returned by forward rasterization equals
exactly `1 -` the final transmittance returned for that pixel. -/
theorem C1_alpha_eq_one_sub_finalT (eps cutoff : ℚ) (binStart : Nat)
    (prims : List Prim) (background : List ℚ) :
    (rasterize_pixel eps cutoff binStart prims background).outAlpha
      = 1 - (rasterize_pixel eps cutoff binStart prims background).finalT := by
  have h := rasterLoop_acc_invariant eps cutoff prims binStart
    (initState binStart background.length)
  rw [show (initState binStart background.length).accAlpha = 0 from rfl,
    show (initState binStart background.length).T = 1 from rfl] at h
  simp only [rasterize_pixel]
  linarith

/-- C5: with an empty tile bin, forward rasterization returns the background
color, alpha `0`, final transmittance `1`, and the sentinel last index
`bin start - 1`. -/
theorem C5_empty_bin_outputs (eps cutoff : ℚ) (binStart : Nat) (background : List ℚ) :
    rasterize_pixel eps cutoff binStart [] background
      = ⟨background, 0, 1, (binStart : Int) - 1⟩ := by
  simp only [rasterize_pixel, rasterLoop, initState]
  rw [zipWith_replicate_zero_background background]

/-- C4: with every per-primitive alpha in `[0, 1]`, the per-pixel
transmittance starts at `1`, is non-increasing from state to state along the
compositing walk, stays in `[0, 1]` throughout, and the returned final
transmittance is in `[0, 1]`. -/
theorem C4_transmittance_monotone_bounded (eps cutoff : ℚ) (binStart numChannels : Nat)
    (prims : List Prim) (hα : ∀ p ∈ prims, 0 ≤ p.alpha ∧ p.alpha ≤ 1) :
    (rasterStates eps cutoff prims binStart (initState binStart numChannels)).head?
        = some (initState binStart numChannels) ∧
    (initState binStart numChannels).T = 1 ∧
    (rasterStates eps cutoff prims binStart (initState binStart numChannels)).Chain'
        (fun a b => b.T ≤ a.T) ∧
    (∀ x ∈ rasterStates eps cutoff prims binStart (initState binStart numChannels),
        0 ≤ x.T ∧ x.T ≤ 1) ∧
    (rasterStates eps cutoff prims binStart (initState binStart numChannels)).getLast?
        = some (rasterLoop eps cutoff prims binStart (initState binStart numChannels)) ∧
    0 ≤ (rasterLoop eps cutoff prims binStart (initState binStart numChannels)).T ∧
    (rasterLoop eps cutoff prims binStart (initState binStart numChannels)).T ≤ 1 := by
  obtain ⟨hmem, hch⟩ := rasterStates_T_bounds eps cutoff prims binStart
    (initState binStart numChannels) hα (by norm_num [initState]) (by norm_num [initState])
  have hlast := rasterStates_getLast eps cutoff prims binStart (initState binStart numChannels)
  have hfin := hmem _ (List.mem_of_mem_getLast? (by rw [hlast]; rfl))
  exact ⟨rasterStates_head eps cutoff prims binStart (initState binStart numChannels),
    rfl, hch, hmem, hlast, hfin⟩

/-- Witness for C4: a one-primitive bin with alpha `1`. -/
theorem C4_witness :
    0 ≤ (rasterLoop (1 / 255) (1 / 10) [⟨1, [1]⟩] 2 (initState 2 1)).T ∧
    (rasterLoop (1 / 255) (1 / 10) [⟨1, [1]⟩] 2 (initState 2 1)).T ≤ 1 :=
  (C4_transmittance_monotone_bounded (1 / 255) (1 / 10) 2 1 [⟨1, [1]⟩]
    (by simp)).2.2.2.2.2

/-! ### Tile-bin edges: partition of the sorted record array -/

/-- On a sorted list, the count of a downward-closed predicate marks the
boundary: position `i` lies below the count exactly when the predicate holds
at `l[i]`. -/
theorem sorted_countP_iff (p : Nat → Bool) (hp : ∀ a b, a ≤ b → p b = true → p a = true) :
    ∀ (l : List Nat), l.Sorted (· ≤ ·) →
      ∀ i (hi : i < l.length), (i < l.countP p ↔ p l[i] = true) := by
  intro l
  induction l with
  | nil => intro _ i hi; exact absurd hi (by simp)
  | cons x xs ih =>
    intro hs i hi
    obtain ⟨hx, hxs⟩ := List.sorted_cons.mp hs
    rw [List.countP_cons]
    cases i with
    | zero =>
      simp only [List.getElem_cons_zero]
      by_cases hpx : p x = true
      · simp [hpx]
      · have hz : xs.countP p = 0 := by
          rw [List.countP_eq_zero]
          intro a ha hpa
          exact hpx (hp x a (hx a ha) hpa)
        simp [hz, hpx]
    | succ n =>
      have hn : n < xs.length := by simpa using hi
      simp only [List.getElem_cons_succ]
      by_cases hpx : p x = true
      · rw [if_pos hpx, Nat.add_lt_add_iff_right]
        exact ih hxs n hn
      · have hz : xs.countP p = 0 := by
          rw [List.countP_eq_zero]
          intro a ha hpa
          exact hpx (hp x a (hx a ha) hpa)
        have hfalse : ¬ p xs[n] = true := List.countP_eq_zero.mp hz xs[n] (xs.getElem_mem hn)
        simp [hz, hpx, hfalse]

/-- On a sorted tile-id list, record `i` lies in tile `t`'s bin range exactly
when its tile id is `t`. -/
theorem tile_bin_mem_iff (tiles : List Nat) (hs : tiles.Sorted (· ≤ ·))
    (t i : Nat) (hi : i < tiles.length) :
    (tile_bin_start tiles t ≤ i ∧ i < tile_bin_end tiles t) ↔ tiles[i] = t := by
  have h1 := sorted_countP_iff (fun a => decide (a < t))
    (by intro a b hab hb; simp only [decide_eq_true_eq] at hb ⊢; omega) tiles hs i hi
  have h2 := sorted_countP_iff (fun a => decide (a ≤ t))
    (by intro a b hab hb; simp only [decide_eq_true_eq] at hb ⊢; omega) tiles hs i hi
  simp only [decide_eq_true_eq] at h1 h2
  rw [show tile_bin_start tiles t = tiles.countP (fun a => decide (a < t)) from rfl,
    show tile_bin_end tiles t = tiles.countP (fun a => decide (a ≤ t)) from rfl]
  constructor
  · rintro ⟨hle, hlt⟩
    have ht1 : tiles[i] ≤ t := h2.mp hlt
    have ht2 : ¬ tiles[i] < t := by
      intro hc
      have := h1.mpr hc
      omega
    omega
  · intro heq
    refine ⟨?_, h2.mpr (by omega)⟩
    by_contra hc
    push_neg at hc
    have := h1.mp hc
    omega

/-- A tile with no matching record has an empty bin: `start = end`. -/
theorem tile_bin_empty_of_not_mem (tiles : List Nat) (t : Nat) (h : t ∉ tiles) :
    tile_bin_start tiles t = tile_bin_end tiles t := by
  rw [tile_bin_start, tile_bin_end]
  induction tiles with
  | nil => rfl
  | cons x xs ih =>
    rw [List.countP_cons, List.countP_cons]
    have hx : x ≠ t := fun hc => h (hc ▸ List.mem_cons_self x xs)
    have hxs : t ∉ xs := fun hc => h (List.mem_cons_of_mem x hc)
    rw [ih hxs]
    congr 1
    by_cases hlt : x < t
    · have hle : x ≤ t := le_of_lt hlt
      simp [hlt, hle]
    · have hle : ¬ x ≤ t := by omega
      simp [hlt, hle]

/-- C2: the `[start, end)` ranges returned by `get_tile_bin_edges` for the
tile ids in `[0, num_tiles)` partition the sorted record array exactly —
each record index lies in the range of exactly one tile, namely the one
whose id it carries — and a tile with no matching record has
`start = end`. -/
theorem C2_tile_bins_partition (tiles : List Nat) (num_tiles : Nat)
    (hs : tiles.Sorted (· ≤ ·)) (hb : ∀ x ∈ tiles, x < num_tiles) :
    (∀ t, t < num_tiles →
      (get_tile_bin_edges num_tiles tiles)[t]?
        = some (tile_bin_start tiles t, tile_bin_end tiles t)) ∧
    (∀ i (hi : i < tiles.length) (t : Nat),
      (tile_bin_start tiles t ≤ i ∧ i < tile_bin_end tiles t) ↔ tiles[i] = t) ∧
    (∀ i (hi : i < tiles.length), ∃! t, t < num_tiles ∧
      tile_bin_start tiles t ≤ i ∧ i < tile_bin_end tiles t) ∧
    (∀ t, t ∉ tiles → tile_bin_start tiles t = tile_bin_end tiles t) := by
  refine ⟨?_, ?_, ?_, fun t => tile_bin_empty_of_not_mem tiles t⟩
  · intro t ht
    simp [get_tile_bin_edges, List.getElem?_map, List.getElem?_range, ht]
  · intro i hi t
    exact tile_bin_mem_iff tiles hs t i hi
  · intro i hi
    refine ⟨tiles[i], ⟨hb tiles[i] (tiles.getElem_mem hi), ?_⟩, ?_⟩
    · exact (tile_bin_mem_iff tiles hs tiles[i] i hi).mpr rfl
    · rintro t ⟨_, hrange⟩
      exact ((tile_bin_mem_iff tiles hs t i hi).mp hrange).symm

/-- Witness for C2: sorted tile ids `[0, 0, 1, 3]` on a `4`-tile grid —
record `2` lies in tile `1`'s range, and the empty tile `2` has
`start = end`. -/
theorem C2_witness :
    (tile_bin_start [0, 0, 1, 3] 1 ≤ 2 ∧ 2 < tile_bin_end [0, 0, 1, 3] 1) ∧
    tile_bin_start [0, 0, 1, 3] 2 = tile_bin_end [0, 0, 1, 3] 2 := by
  have h := C2_tile_bins_partition [0, 0, 1, 3] 4 (by decide) (by decide)
  exact ⟨(h.2.1 2 (by decide) 1).mpr (by decide), h.2.2.2 2 (by decide)⟩

/-! ### Sorted intersection records: tile contiguity and depth order -/

/-- The packed key orders tile ids: a key-smaller record has a no-larger
tile id (the tile occupies the high bits and the depth fits the low bits). -/
theorem packKey_le_tile_le {a b : IsectRecord} (hb : b.depth < 2 ^ 32)
    (h : packKey a ≤ packKey b) : a.tileId ≤ b.tileId := by
  by_contra hc
  push_neg at hc
  have hlt : packKey b < packKey a := by
    rw [packKey, packKey]
    calc b.tileId * 2 ^ 32 + b.depth < b.tileId * 2 ^ 32 + 2 ^ 32 := by omega
    _ = (b.tileId + 1) * 2 ^ 32 := by ring
    _ ≤ a.tileId * 2 ^ 32 := Nat.mul_le_mul_right _ hc
    _ ≤ a.tileId * 2 ^ 32 + a.depth := Nat.le_add_right _ _
  omega

/-- Within a tile, the packed key orders depths. -/
theorem packKey_le_depth_le {a b : IsectRecord} (ht : a.tileId = b.tileId)
    (h : packKey a ≤ packKey b) : a.depth ≤ b.depth := by
  rw [packKey, packKey, ht] at h
  omega

/-- Within a tile, a strictly smaller packed key means a strictly smaller
depth. -/
theorem packKey_lt_depth_lt {a b : IsectRecord} (ht : a.tileId = b.tileId)
    (h : packKey a < packKey b) : a.depth < b.depth := by
  rw [packKey, packKey, ht] at h
  omega

/-- C3 amended: in a record array sorted by packed key (valid 32-bit
depths), records with equal tile id are contiguous and their depths are
non-decreasing; they are strictly increasing whenever the packed keys are
pairwise distinct (i.e. absent exact depth ties within a tile). -/
theorem C3_sorted_tile_contiguous_depth_order (l : List IsectRecord)
    (hd : DepthsValid l) (hs : SortedByKey l) :
    (∀ i j k (hi : i < l.length) (hj : j < l.length) (hk : k < l.length),
      i ≤ j → j ≤ k → (l.get ⟨i, hi⟩).tileId = (l.get ⟨k, hk⟩).tileId →
      (l.get ⟨j, hj⟩).tileId = (l.get ⟨i, hi⟩).tileId) ∧
    (∀ i j (hi : i < l.length) (hj : j < l.length), i ≤ j →
      (l.get ⟨i, hi⟩).tileId = (l.get ⟨j, hj⟩).tileId →
      (l.get ⟨i, hi⟩).depth ≤ (l.get ⟨j, hj⟩).depth) ∧
    (l.Pairwise (fun a b => packKey a < packKey b) → StrictDepthOrder l) := by
  have hkey : ∀ (i j : Fin l.length), i ≤ j → packKey (l.get i) ≤ packKey (l.get j) := by
    intro i j hij
    rcases lt_or_eq_of_le hij with hlt | heq
    · exact List.pairwise_iff_get.mp hs i j hlt
    · rw [heq]
  have htile : ∀ (i j : Fin l.length), i ≤ j → (l.get i).tileId ≤ (l.get j).tileId := by
    intro i j hij
    exact packKey_le_tile_le (hd (l.get j) (l.get_mem j.1 j.2)) (hkey i j hij)
  refine ⟨?_, ?_, ?_⟩
  · intro i j k hi hj hk hij hjk heq
    have h1 := htile ⟨i, hi⟩ ⟨j, hj⟩ hij
    have h2 := htile ⟨j, hj⟩ ⟨k, hk⟩ hjk
    omega
  · intro i j hi hj hij heq
    exact packKey_le_depth_le heq (hkey ⟨i, hi⟩ ⟨j, hj⟩ hij)
  · intro hstrict i j hi hj hij heq
    exact packKey_lt_depth_lt heq (List.pairwise_iff_get.mp hstrict ⟨i, hi⟩ ⟨j, hj⟩ hij)

/-- Witness for C3: two records in tile `1` at depths `3` and `5`, sorted by
packed key — the earlier record's depth does not exceed the later one's. -/
theorem C3_witness :
    (([⟨0, 1, 3⟩, ⟨1, 1, 5⟩] : List IsectRecord).get ⟨0, by decide⟩).depth
      ≤ (([⟨0, 1, 3⟩, ⟨1, 1, 5⟩] : List IsectRecord).get ⟨1, by decide⟩).depth :=
  (C3_sorted_tile_contiguous_depth_order [⟨0, 1, 3⟩, ⟨1, 1, 5⟩]
    (by decide) (by decide)).2.1 0 1 (by decide) (by decide) (by decide) (by decide)

/-- C3 counterexample: `tiedDepthRecords` is sorted by packed key and has
valid depths, yet its two tile-`5` records both carry depth `7`, so the
depths within the tile are not strictly increasing. -/
theorem C3_counterexample :
    DepthsValid tiedDepthRecords ∧ SortedByKey tiedDepthRecords ∧
    ¬ StrictDepthOrder tiedDepthRecords := by
  refine ⟨by decide, by decide, ?_⟩
  intro hcl
  have h := hcl 0 1 (by decide) (by decide) (by decide) (by decide)
  exact absurd h (by decide)

end GSplat
